import Mathlib

/-!
Verification of the brainfuck interpreter core (`src/rust/src/lib.rs`).

The Rust source is shallowly embedded: each Rust function becomes a Lean
definition of the same name (module paths flattened).  Machine integers are
modelled as `Nat` with explicit reduction modulo `2^32` (`u32` cells, release
profile wrapping arithmetic) and modulo `2^64` (`usize` pointers).  A Rust
panic (out-of-bounds indexing, failing `try_into().unwrap()`) is modelled as
an explicit error value; the process I/O streams are modelled as lists of
bytes threaded through the execution state.
-/

/-- Rust: `type Position = usize;` -/
abbrev Position := Nat

/-- Rust enum `Token` (lib.rs lines 111-123). -/
inductive Token where
  | ProgramStart
  | ProgramEnd
  | LoopStart (pos : Position)
  | LoopEnd (pos : Position)
  | IncValue (pos : Position)
  | DecValue (pos : Position)
  | MoveForward (pos : Position)
  | MoveBack (pos : Position)
  | InputValue (pos : Position)
  | OutputValue (pos : Position)
deriving DecidableEq

/-- The `match opcode` arms inside `tokenize` (lib.rs lines 131-141): the
token emitted for character `c` at source index `pos`, or `none` for the
catch-all `_ => ()` arm that emits nothing. -/
def tokenOfChar (pos : Nat) (c : Char) : Option Token :=
  match c with
  | '[' => some (.LoopStart pos)
  | ']' => some (.LoopEnd pos)
  | '>' => some (.MoveForward pos)
  | '<' => some (.MoveBack pos)
  | '+' => some (.IncValue pos)
  | '-' => some (.DecValue pos)
  | '.' => some (.OutputValue pos)
  | ',' => some (.InputValue pos)
  | _ => none

/-- The `for (pos, opcode) in program.iter().enumerate()` loop of `tokenize`,
starting the position counter at `pos`. -/
def tokenizeFrom (pos : Nat) : List Char → List Token
  | [] => []
  | c :: rest =>
    match tokenOfChar pos c with
    | some t => t :: tokenizeFrom (pos + 1) rest
    | none => tokenizeFrom (pos + 1) rest

/-- Rust `tokenize` (lib.rs lines 125-147): a `ProgramStart` sentinel, the
tokens of the enumerated characters, and a `ProgramEnd` sentinel. -/
def tokenize (program : List Char) : List Token :=
  Token.ProgramStart :: tokenizeFrom 0 program ++ [Token.ProgramEnd]

/-- Rust enum `InvalidProgramError` (lib.rs lines 13-17). -/
inductive InvalidProgramError where
  | ExcessiveOpeningBrackets (pos : Position)
  | UnexpectedClosingBracket (pos : Position)
deriving DecidableEq

/-- Rust enum `Expression` (lib.rs lines 149-158).  The `u32` / `usize`
count fields are modelled as `Nat`. -/
inductive Expression where
  | IncValue (n : Nat)
  | DecValue (n : Nat)
  | MoveForward (n : Nat)
  | MoveBack (n : Nat)
  | InputValue
  | OutputValue
  | Loop (children : List Expression)

/-- Rust `do_parse` (lib.rs lines 180-225), the recursive-descent parser.
The Rust function threads a token iterator through its recursive calls; here
the iterator is the remaining token list, returned alongside the parsed
expressions.  The extra `fuel` argument makes the recursion structural: it
only pays for the call that resumes the current level after a nested loop
has been parsed, and `parse` supplies `tokens.length`, which is enough fuel
because every recursive call consumes at least one token.  The `fuel = 0`
fallback is unreachable under that supply. -/
def do_parse (fuel : Nat) (tokens : List Token) (level : Nat) :
    Except InvalidProgramError (List Expression × List Token) :=
  match fuel, tokens with
  | _, [] => .ok ([], [])
  | 0, t :: rest => .ok ([], t :: rest)
  | fuel + 1, t :: rest =>
    match t with
    | .LoopStart _ =>
      match do_parse fuel rest (level + 1) with
      | .error e => .error e
      | .ok (sub, next) =>
        match do_parse fuel next level with
        | .error e => .error e
        | .ok (es, rem) => .ok (Expression.Loop sub :: es, rem)
    | .LoopEnd pos =>
      if level = 0 then .error (.UnexpectedClosingBracket pos)
      else .ok ([], rest)
    | .MoveForward _ =>
      match do_parse fuel rest level with
      | .error e => .error e
      | .ok (es, rem) => .ok (Expression.MoveForward 1 :: es, rem)
    | .MoveBack _ =>
      match do_parse fuel rest level with
      | .error e => .error e
      | .ok (es, rem) => .ok (Expression.MoveBack 1 :: es, rem)
    | .IncValue _ =>
      match do_parse fuel rest level with
      | .error e => .error e
      | .ok (es, rem) => .ok (Expression.IncValue 1 :: es, rem)
    | .DecValue _ =>
      match do_parse fuel rest level with
      | .error e => .error e
      | .ok (es, rem) => .ok (Expression.DecValue 1 :: es, rem)
    | .OutputValue _ =>
      match do_parse fuel rest level with
      | .error e => .error e
      | .ok (es, rem) => .ok (Expression.OutputValue :: es, rem)
    | .InputValue _ =>
      match do_parse fuel rest level with
      | .error e => .error e
      | .ok (es, rem) => .ok (Expression.InputValue :: es, rem)
    | .ProgramStart => do_parse fuel rest level
    | .ProgramEnd =>
      if 0 < level then .error (.ExcessiveOpeningBrackets 0)
      else do_parse fuel rest level

/-- Rust `parse` (lib.rs lines 174-178): run `do_parse` at level 0 and keep
the expressions. -/
def parse (tokens : List Token) : Except InvalidProgramError (List Expression) :=
  (do_parse tokens.length tokens 0).map (fun p => p.1)

section TokenizerTheorems

/-- The position-threading loop of `tokenize` equals a filterMap over the
position-enumerated characters. -/
theorem tokenizeFrom_eq (p : Nat) (cs : List Char) :
    tokenizeFrom p cs = (cs.enumFrom p).filterMap (fun pc => tokenOfChar pc.1 pc.2) := by
  induction cs generalizing p with
  | nil => rfl
  | cons c rest ih =>
    simp only [tokenizeFrom, List.enumFrom, List.filterMap_cons]
    cases h : tokenOfChar p c <;> simp [h, ih]

/-- C8: the tokenizer always succeeds, brackets its output with
`ProgramStart` and `ProgramEnd`, and emits for the character at index `i`
exactly the token of `tokenOfChar i` (a positioned token for the eight
instruction characters, nothing for any other character). -/
theorem tokenize_spec :
    (∀ cs : List Char,
      tokenize cs =
        Token.ProgramStart ::
          (cs.enum.filterMap fun pc => tokenOfChar pc.1 pc.2) ++ [Token.ProgramEnd]
      ∧ (tokenize cs).head? = some Token.ProgramStart
      ∧ (tokenize cs).getLast? = some Token.ProgramEnd)
    ∧ tokenize ['a', '+', 'b'] = [Token.ProgramStart, Token.IncValue 1, Token.ProgramEnd] := by
  constructor
  · intro cs
    have h1 : tokenize cs =
        Token.ProgramStart ::
          (cs.enum.filterMap fun pc => tokenOfChar pc.1 pc.2) ++ [Token.ProgramEnd] := by
      simp [tokenize, tokenizeFrom_eq, List.enum]
    refine ⟨h1, by rw [h1]; rfl, ?_⟩
    rw [h1]
    exact List.getLast?_concat _
  · rfl

end TokenizerTheorems

section ParserTheorems

/-- Statement form of "every `ExcessiveOpeningBrackets` error carries
position 0". -/
def excessiveAtZero : Except InvalidProgramError (List Expression × List Token) → Prop
  | .error (.ExcessiveOpeningBrackets p) => p = 0
  | _ => True

theorem do_parse_excessive_zero (fuel : Nat) :
    ∀ tokens level, excessiveAtZero (do_parse fuel tokens level) := by
  induction fuel with
  | zero =>
    intro tokens level
    cases tokens <;> simp [do_parse, excessiveAtZero]
  | succ f ih =>
    intro tokens level
    cases tokens with
    | nil => simp [do_parse, excessiveAtZero]
    | cons t rest =>
      cases t with
      | LoopStart pos =>
        simp only [do_parse]
        cases h1 : do_parse f rest (level + 1) with
        | error e => have := ih rest (level + 1); rw [h1] at this; exact this
        | ok p1 =>
          cases h2 : do_parse f p1.2 level with
          | error e =>
            have := ih p1.2 level; rw [h2] at this; simp [h2]; exact this
          | ok p2 => simp [h2, excessiveAtZero]
      | LoopEnd pos =>
        simp only [do_parse]
        by_cases h : level = 0 <;> simp [h, excessiveAtZero]
      | ProgramStart => simp only [do_parse]; exact ih rest level
      | ProgramEnd =>
        simp only [do_parse]
        by_cases h : 0 < level <;> simp [h, excessiveAtZero]
        · exact ih rest level
      | MoveForward pos =>
        simp only [do_parse]
        cases h1 : do_parse f rest level with
        | error e => have := ih rest level; rw [h1] at this; exact this
        | ok p => simp [excessiveAtZero]
      | MoveBack pos =>
        simp only [do_parse]
        cases h1 : do_parse f rest level with
        | error e => have := ih rest level; rw [h1] at this; exact this
        | ok p => simp [excessiveAtZero]
      | IncValue pos =>
        simp only [do_parse]
        cases h1 : do_parse f rest level with
        | error e => have := ih rest level; rw [h1] at this; exact this
        | ok p => simp [excessiveAtZero]
      | DecValue pos =>
        simp only [do_parse]
        cases h1 : do_parse f rest level with
        | error e => have := ih rest level; rw [h1] at this; exact this
        | ok p => simp [excessiveAtZero]
      | InputValue pos =>
        simp only [do_parse]
        cases h1 : do_parse f rest level with
        | error e => have := ih rest level; rw [h1] at this; exact this
        | ok p => simp [excessiveAtZero]
      | OutputValue pos =>
        simp only [do_parse]
        cases h1 : do_parse f rest level with
        | error e => have := ih rest level; rw [h1] at this; exact this
        | ok p => simp [excessiveAtZero]

/-- C4: parsing `"["` fails with `ExcessiveOpeningBrackets` at position 0,
and the reported position is 0 for every unmatched `LoopStart` wherever it
occurs; parsing `"]"` fails with `UnexpectedClosingBracket` carrying that
token's source position; the first structural error encountered is the one
reported, with no aggregation. -/
theorem parse_error_reporting :
    parse (tokenize ['[']) = .error (.ExcessiveOpeningBrackets 0)
    ∧ parse (tokenize [']']) = .error (.UnexpectedClosingBracket 0)
    ∧ parse (tokenize ['+', '+', '[']) = .error (.ExcessiveOpeningBrackets 0)
    ∧ parse (tokenize ['+', '+', ']']) = .error (.UnexpectedClosingBracket 2)
    ∧ parse (tokenize [']', ']']) = .error (.UnexpectedClosingBracket 0)
    ∧ (∀ fuel tokens level, excessiveAtZero (do_parse fuel tokens level)) :=
  ⟨rfl, rfl, rfl, rfl, rfl, do_parse_excessive_zero⟩

end ParserTheorems

/-- Modulus of the `u32` cell and count arithmetic (2^32): Rust `+=`, `-=`
and `n + 1` on `u32` wrap modulo 2^32 in the release profile. -/
def U32_MOD : Nat := 4294967296

/-- Modulus of `usize` arithmetic (2^64): pointer moves and move-count
merging wrap modulo 2^64 in the release profile. -/
def USIZE_MOD : Nat := 18446744073709551616

/-- Rust `replace_top` (lib.rs lines 227-230): pop the last element, push
`e`. -/
def replace_top (v : List Expression) (e : Expression) : List Expression :=
  v.dropLast ++ [e]

/-- The `match (optimized.last(), expression)` of `optimize` (lib.rs lines
236-257) for an incoming node whose `Loop` children, if any, have already
been optimized: the four run-length merge arms, and the catch-all push.
The incoming-count patterns are the literal `1` of the Rust arms. -/
def optimizePush (optimized : List Expression) (e : Expression) : List Expression :=
  match optimized.getLast?, e with
  | some (.IncValue n), .IncValue 1 => replace_top optimized (.IncValue ((n + 1) % U32_MOD))
  | some (.DecValue n), .DecValue 1 => replace_top optimized (.DecValue ((n + 1) % U32_MOD))
  | some (.MoveForward n), .MoveForward 1 =>
      replace_top optimized (.MoveForward ((n + 1) % USIZE_MOD))
  | some (.MoveBack n), .MoveBack 1 => replace_top optimized (.MoveBack ((n + 1) % USIZE_MOD))
  | _, _ => optimized ++ [e]

mutual

/-- The value the loop body of `optimize` pushes for one source node: a
`Loop` is rebuilt around its recursively optimized children (lib.rs lines
237-241), every other node is passed through to the merge-or-push match. -/
def optimizeExpr : Expression → Expression
  | .Loop sub_exp => .Loop (optimizeList [] sub_exp)
  | e => e

/-- The `for expression in expressions` accumulator loop of `optimize`
(lib.rs lines 235-258). -/
def optimizeList (optimized : List Expression) : List Expression → List Expression
  | [] => optimized
  | expression :: rest => optimizeList (optimizePush optimized (optimizeExpr expression)) rest

end

/-- Rust `optimize` (lib.rs lines 232-261). -/
def optimize (expressions : List Expression) : List Expression :=
  optimizeList [] expressions

section OptimizerTheorems

/-- Both arguments are of the same one of the four mergeable kinds. -/
def mergeableSameKind : Expression → Expression → Bool
  | .IncValue _, .IncValue _ => true
  | .DecValue _, .DecValue _ => true
  | .MoveForward _, .MoveForward _ => true
  | .MoveBack _, .MoveBack _ => true
  | _, _ => false

theorem optimizePush_of_getLast_none {acc : List Expression} (e : Expression)
    (h : acc.getLast? = none) : optimizePush acc e = acc ++ [e] := by
  cases e <;> simp [optimizePush, h]

theorem optimizePush_of_not_sameKind {acc : List Expression} {x e : Expression}
    (h : acc.getLast? = some x) (hk : mergeableSameKind x e = false) :
    optimizePush acc e = acc ++ [e] := by
  cases x <;> cases e <;> simp_all [optimizePush, mergeableSameKind]

theorem optimizePush_loop (acc : List Expression) (sub : List Expression) :
    optimizePush acc (.Loop sub) = acc ++ [.Loop sub] := by
  cases h : acc.getLast? with
  | none => exact optimizePush_of_getLast_none _ h
  | some x => cases x <;> simp [optimizePush, h]

theorem optimizePush_input (acc : List Expression) :
    optimizePush acc .InputValue = acc ++ [.InputValue] := by
  cases h : acc.getLast? with
  | none => exact optimizePush_of_getLast_none _ h
  | some x => cases x <;> simp [optimizePush, h]

theorem optimizePush_output (acc : List Expression) :
    optimizePush acc .OutputValue = acc ++ [.OutputValue] := by
  cases h : acc.getLast? with
  | none => exact optimizePush_of_getLast_none _ h
  | some x => cases x <;> simp [optimizePush, h]

/-- C6: run-length folding merges only consecutive siblings of the same
mergeable kind (the folded `"+++"` example, the unmerged `"><"` example,
and the no-merge step law), and `InputValue` / `OutputValue` nodes are
always pushed unchanged, never merged. -/
theorem optimize_run_length_folding :
    parse (tokenize ['+', '+', '+'])
      = .ok [Expression.IncValue 1, Expression.IncValue 1, Expression.IncValue 1]
    ∧ optimize [Expression.IncValue 1, Expression.IncValue 1, Expression.IncValue 1]
      = [Expression.IncValue 3]
    ∧ parse (tokenize ['>', '<']) = .ok [Expression.MoveForward 1, Expression.MoveBack 1]
    ∧ optimize [Expression.MoveForward 1, Expression.MoveBack 1]
      = [Expression.MoveForward 1, Expression.MoveBack 1]
    ∧ (∀ acc x e, acc.getLast? = some x → mergeableSameKind x e = false →
        optimizePush acc e = acc ++ [e])
    ∧ (∀ acc, optimizePush acc .InputValue = acc ++ [.InputValue])
    ∧ (∀ acc, optimizePush acc .OutputValue = acc ++ [.OutputValue]) :=
  ⟨rfl, rfl, rfl, rfl, fun _ _ _ h hk => optimizePush_of_not_sameKind h hk,
    optimizePush_input, optimizePush_output⟩

end OptimizerTheorems

mutual

/-- Every count field of the expression equals 1, as in freshly parsed
trees (spec §3: "Invariant pre-optimization: every count field equals 1"). -/
def allOnesE : Expression → Bool
  | .IncValue n => n == 1
  | .DecValue n => n == 1
  | .MoveForward n => n == 1
  | .MoveBack n => n == 1
  | .InputValue => true
  | .OutputValue => true
  | .Loop sub => allOnesL sub

/-- Every count field in the list of expressions equals 1. -/
def allOnesL : List Expression → Bool
  | [] => true
  | e :: rest => allOnesE e && allOnesL rest

end

section IdempotenceTheorems

theorem do_parse_allOnes (fuel : Nat) :
    ∀ tokens level es rem, do_parse fuel tokens level = .ok (es, rem) → allOnesL es = true := by
  induction fuel with
  | zero =>
    intro tokens level es rem h
    cases tokens <;> simp [do_parse] at h <;> simp [h.1, allOnesL]
  | succ f ih =>
    intro tokens level es rem h
    cases tokens with
    | nil =>
      simp [do_parse] at h
      simp [h.1, allOnesL]
    | cons t rest =>
      cases t with
      | LoopStart pos =>
        simp only [do_parse] at h
        cases h1 : do_parse f rest (level + 1) with
        | error e => rw [h1] at h; cases h
        | ok p1 =>
          obtain ⟨sub, next⟩ := p1
          rw [h1] at h
          dsimp only at h
          cases h2 : do_parse f next level with
          | error e => rw [h2] at h; cases h
          | ok p2 =>
            obtain ⟨es2, rem2⟩ := p2
            rw [h2] at h
            dsimp only at h
            simp only [Except.ok.injEq, Prod.mk.injEq] at h
            obtain ⟨hes, hrem⟩ := h
            subst hes
            rw [allOnesL, allOnesE]
            simp [ih rest (level + 1) sub next h1, ih next level es2 rem2 h2]
      | LoopEnd pos =>
        simp only [do_parse] at h
        by_cases hl : level = 0
        · simp [hl] at h
        · simp [hl] at h
          simp [h.1, allOnesL]
      | ProgramStart =>
        simp only [do_parse] at h
        exact ih rest level es rem h
      | ProgramEnd =>
        simp only [do_parse] at h
        by_cases hl : 0 < level
        · simp [hl] at h
        · simp [hl] at h
          exact ih rest level es rem h
      | MoveForward pos =>
        simp only [do_parse] at h
        cases h1 : do_parse f rest level with
        | error e => rw [h1] at h; cases h
        | ok p =>
          obtain ⟨es2, rem2⟩ := p
          rw [h1] at h
          dsimp only at h
          simp only [Except.ok.injEq, Prod.mk.injEq] at h
          obtain ⟨hes, hrem⟩ := h
          subst hes
          rw [allOnesL, allOnesE]
          simp [ih rest level es2 rem2 h1]
      | MoveBack pos =>
        simp only [do_parse] at h
        cases h1 : do_parse f rest level with
        | error e => rw [h1] at h; cases h
        | ok p =>
          obtain ⟨es2, rem2⟩ := p
          rw [h1] at h
          dsimp only at h
          simp only [Except.ok.injEq, Prod.mk.injEq] at h
          obtain ⟨hes, hrem⟩ := h
          subst hes
          rw [allOnesL, allOnesE]
          simp [ih rest level es2 rem2 h1]
      | IncValue pos =>
        simp only [do_parse] at h
        cases h1 : do_parse f rest level with
        | error e => rw [h1] at h; cases h
        | ok p =>
          obtain ⟨es2, rem2⟩ := p
          rw [h1] at h
          dsimp only at h
          simp only [Except.ok.injEq, Prod.mk.injEq] at h
          obtain ⟨hes, hrem⟩ := h
          subst hes
          rw [allOnesL, allOnesE]
          simp [ih rest level es2 rem2 h1]
      | DecValue pos =>
        simp only [do_parse] at h
        cases h1 : do_parse f rest level with
        | error e => rw [h1] at h; cases h
        | ok p =>
          obtain ⟨es2, rem2⟩ := p
          rw [h1] at h
          dsimp only at h
          simp only [Except.ok.injEq, Prod.mk.injEq] at h
          obtain ⟨hes, hrem⟩ := h
          subst hes
          rw [allOnesL, allOnesE]
          simp [ih rest level es2 rem2 h1]
      | InputValue pos =>
        simp only [do_parse] at h
        cases h1 : do_parse f rest level with
        | error e => rw [h1] at h; cases h
        | ok p =>
          obtain ⟨es2, rem2⟩ := p
          rw [h1] at h
          dsimp only at h
          simp only [Except.ok.injEq, Prod.mk.injEq] at h
          obtain ⟨hes, hrem⟩ := h
          subst hes
          rw [allOnesL, allOnesE]
          simp [ih rest level es2 rem2 h1]
      | OutputValue pos =>
        simp only [do_parse] at h
        cases h1 : do_parse f rest level with
        | error e => rw [h1] at h; cases h
        | ok p =>
          obtain ⟨es2, rem2⟩ := p
          rw [h1] at h
          dsimp only at h
          simp only [Except.ok.injEq, Prod.mk.injEq] at h
          obtain ⟨hes, hrem⟩ := h
          subst hes
          rw [allOnesL, allOnesE]
          simp [ih rest level es2 rem2 h1]

/-- No two adjacent elements are of the same mergeable kind: the shape the
optimizer's accumulator keeps when fed count-1 input. -/
def NoAdjacentMergeable (l : List Expression) : Prop :=
  List.Chain' (fun a b => mergeableSameKind a b = false) l

theorem noAdjacent_append_singleton {acc : List Expression} {e : Expression}
    (hch : NoAdjacentMergeable acc)
    (hlast : ∀ x, acc.getLast? = some x → mergeableSameKind x e = false) :
    NoAdjacentMergeable (acc ++ [e]) := by
  rw [NoAdjacentMergeable, List.chain'_append]
  refine ⟨hch, List.chain'_singleton _, ?_⟩
  intro x hx y hy
  simp only [List.head?_cons, Option.mem_def, Option.some.injEq] at hy
  subst hy
  exact hlast x (Option.mem_def.mp hx)

theorem noAdjacent_replace_top {acc : List Expression} {x m : Expression}
    (hch : NoAdjacentMergeable acc) (hacc : acc.getLast? = some x)
    (hm : ∀ y, mergeableSameKind y m = mergeableSameKind y x) :
    NoAdjacentMergeable (replace_top acc m) := by
  have hacc_eq : acc.dropLast ++ [x] = acc :=
    List.dropLast_append_getLast? x (Option.mem_def.mpr hacc)
  rw [← hacc_eq, NoAdjacentMergeable, List.chain'_append] at hch
  rw [replace_top, NoAdjacentMergeable, List.chain'_append]
  refine ⟨hch.1, List.chain'_singleton _, ?_⟩
  intro a ha b hb
  simp only [List.head?_cons, Option.mem_def, Option.some.injEq] at hb
  subst hb
  rw [hm a]
  exact hch.2.2 a ha x (by simp)

theorem optimizeExpr_nonloop_fixed {e : Expression}
    (h : (match e with | Expression.Loop _ => False | _ => True)) :
    optimizeExpr e = e := by
  cases e <;> simp_all [optimizeExpr]

/-- Running the optimizer loop over an already-normal list (no adjacent
mergeable pair, every loop body a fixed point) appends it unchanged. -/
theorem optimizeList_of_normal :
    ∀ (l acc : List Expression),
      NoAdjacentMergeable l →
      (∀ e ∈ l, optimizeExpr e = e) →
      (∀ x y, acc.getLast? = some x → l.head? = some y → mergeableSameKind x y = false) →
      optimizeList acc l = acc ++ l := by
  intro l
  induction l with
  | nil => intro acc _ _ _; simp [optimizeList]
  | cons e rest ih =>
    intro acc hch hfix hcompat
    rw [NoAdjacentMergeable, List.chain'_cons'] at hch
    have hfe : optimizeExpr e = e := hfix e (by simp)
    have hpush : optimizePush acc (optimizeExpr e) = acc ++ [e] := by
      rw [hfe]
      cases hacc : acc.getLast? with
      | none => exact optimizePush_of_getLast_none _ hacc
      | some x => exact optimizePush_of_not_sameKind hacc (hcompat x e hacc rfl)
    simp only [optimizeList]
    rw [hpush]
    rw [ih (acc ++ [e]) hch.2 (fun x hx => hfix x (by simp [hx])) ?_]
    · simp
    · intro x y hx hy
      rw [List.getLast?_concat] at hx
      cases hx
      exact hch.1 y (Option.mem_def.mpr hy)

theorem optimizePush_invariant_nonloop {acc : List Expression} {e : Expression}
    (hch : NoAdjacentMergeable acc) (hfix : ∀ x ∈ acc, optimizeExpr x = x)
    (hshape : (match e with | Expression.Loop _ => False | _ => True))
    (hone : allOnesE e = true) :
    NoAdjacentMergeable (optimizePush acc e) ∧
      (∀ x ∈ optimizePush acc e, optimizeExpr x = x) := by
  cases hacc : acc.getLast? with
  | none =>
    rw [optimizePush_of_getLast_none _ hacc]
    have hnil : acc = [] := List.getLast?_eq_none_iff.mp hacc
    subst hnil
    refine ⟨List.chain'_singleton _, ?_⟩
    intro x hx
    simp only [List.nil_append, List.mem_singleton] at hx
    subst hx
    exact optimizeExpr_nonloop_fixed hshape
  | some x =>
    by_cases hsk : mergeableSameKind x e = true
    · cases e with
      | IncValue k =>
        have hk : k = 1 := by simpa [allOnesE] using hone
        subst hk
        cases x <;> simp [mergeableSameKind] at hsk
        rename_i n
        have hpush : optimizePush acc (.IncValue 1)
            = replace_top acc (.IncValue ((n + 1) % U32_MOD)) := by
          simp [optimizePush, hacc]
        rw [hpush]
        refine ⟨noAdjacent_replace_top hch hacc (fun y => by cases y <;> rfl), ?_⟩
        intro z hz
        rw [replace_top] at hz
        rcases List.mem_append.mp hz with h' | h'
        · exact hfix z (List.dropLast_subset _ h')
        · simp only [List.mem_singleton] at h'
          subst h'
          rfl
      | DecValue k =>
        have hk : k = 1 := by simpa [allOnesE] using hone
        subst hk
        cases x <;> simp [mergeableSameKind] at hsk
        rename_i n
        have hpush : optimizePush acc (.DecValue 1)
            = replace_top acc (.DecValue ((n + 1) % U32_MOD)) := by
          simp [optimizePush, hacc]
        rw [hpush]
        refine ⟨noAdjacent_replace_top hch hacc (fun y => by cases y <;> rfl), ?_⟩
        intro z hz
        rw [replace_top] at hz
        rcases List.mem_append.mp hz with h' | h'
        · exact hfix z (List.dropLast_subset _ h')
        · simp only [List.mem_singleton] at h'
          subst h'
          rfl
      | MoveForward k =>
        have hk : k = 1 := by simpa [allOnesE] using hone
        subst hk
        cases x <;> simp [mergeableSameKind] at hsk
        rename_i n
        have hpush : optimizePush acc (.MoveForward 1)
            = replace_top acc (.MoveForward ((n + 1) % USIZE_MOD)) := by
          simp [optimizePush, hacc]
        rw [hpush]
        refine ⟨noAdjacent_replace_top hch hacc (fun y => by cases y <;> rfl), ?_⟩
        intro z hz
        rw [replace_top] at hz
        rcases List.mem_append.mp hz with h' | h'
        · exact hfix z (List.dropLast_subset _ h')
        · simp only [List.mem_singleton] at h'
          subst h'
          rfl
      | MoveBack k =>
        have hk : k = 1 := by simpa [allOnesE] using hone
        subst hk
        cases x <;> simp [mergeableSameKind] at hsk
        rename_i n
        have hpush : optimizePush acc (.MoveBack 1)
            = replace_top acc (.MoveBack ((n + 1) % USIZE_MOD)) := by
          simp [optimizePush, hacc]
        rw [hpush]
        refine ⟨noAdjacent_replace_top hch hacc (fun y => by cases y <;> rfl), ?_⟩
        intro z hz
        rw [replace_top] at hz
        rcases List.mem_append.mp hz with h' | h'
        · exact hfix z (List.dropLast_subset _ h')
        · simp only [List.mem_singleton] at h'
          subst h'
          rfl
      | InputValue => cases x <;> simp [mergeableSameKind] at hsk
      | OutputValue => cases x <;> simp [mergeableSameKind] at hsk
      | Loop sub => simp at hshape
    · have hskf : mergeableSameKind x e = false := by simpa using hsk
      rw [optimizePush_of_not_sameKind hacc hskf]
      refine ⟨noAdjacent_append_singleton hch ?_, ?_⟩
      · intro x' hx'
        rw [hacc] at hx'
        cases hx'
        exact hskf
      · intro z hz
        rcases List.mem_append.mp hz with h' | h'
        · exact hfix z h'
        · simp only [List.mem_singleton] at h'
          subst h'
          exact optimizeExpr_nonloop_fixed hshape

/-- The optimizer's fold keeps its accumulator normal when fed count-1
input, and every `Loop` body it emits is itself a fixed point of the
optimizer. -/
theorem optimizeList_invariant :
    ∀ (n : Nat) (es : List Expression), sizeOf es ≤ n → allOnesL es = true →
      ∀ acc : List Expression, NoAdjacentMergeable acc →
        (∀ e ∈ acc, optimizeExpr e = e) →
        NoAdjacentMergeable (optimizeList acc es) ∧
          (∀ e ∈ optimizeList acc es, optimizeExpr e = e) := by
  intro n
  induction n using Nat.strong_induction_on with
  | _ n ih =>
    intro es hsz hones acc hch hfix
    cases es with
    | nil => simp only [optimizeList]; exact ⟨hch, hfix⟩
    | cons e rest =>
      have hones' : allOnesE e = true ∧ allOnesL rest = true := by
        simpa [allOnesL, Bool.and_eq_true] using hones
      have hszrest : sizeOf rest < n :=
        lt_of_lt_of_le (by simp [List.cons.sizeOf_spec]) hsz
      have hstep : NoAdjacentMergeable (optimizePush acc (optimizeExpr e)) ∧
          (∀ x ∈ optimizePush acc (optimizeExpr e), optimizeExpr x = x) := by
        cases e with
        | Loop sub =>
          have hsub_sz : sizeOf sub < n :=
            lt_of_lt_of_le
              (by simp [List.cons.sizeOf_spec, Expression.Loop.sizeOf_spec]; omega) hsz
          have honesub : allOnesL sub = true := by simpa [allOnesE] using hones'.1
          have hsubinv := ih (sizeOf sub) hsub_sz sub le_rfl honesub [] List.chain'_nil
            (by simp)
          have hfixsub : optimizeList [] (optimizeList [] sub) = optimizeList [] sub := by
            have := optimizeList_of_normal (optimizeList [] sub) [] hsubinv.1 hsubinv.2
              (by simp)
            simpa using this
          rw [show optimizeExpr (Expression.Loop sub)
              = Expression.Loop (optimizeList [] sub) from rfl, optimizePush_loop]
          constructor
          · exact noAdjacent_append_singleton hch (fun x _ => by cases x <;> rfl)
          · intro z hz
            rcases List.mem_append.mp hz with h' | h'
            · exact hfix z h'
            · simp only [List.mem_singleton] at h'
              subst h'
              rw [show optimizeExpr (Expression.Loop (optimizeList [] sub))
                  = Expression.Loop (optimizeList [] (optimizeList [] sub)) from rfl,
                hfixsub]
        | IncValue k => exact optimizePush_invariant_nonloop hch hfix trivial hones'.1
        | DecValue k => exact optimizePush_invariant_nonloop hch hfix trivial hones'.1
        | MoveForward k => exact optimizePush_invariant_nonloop hch hfix trivial hones'.1
        | MoveBack k => exact optimizePush_invariant_nonloop hch hfix trivial hones'.1
        | InputValue => exact optimizePush_invariant_nonloop hch hfix trivial hones'.1
        | OutputValue => exact optimizePush_invariant_nonloop hch hfix trivial hones'.1
      simp only [optimizeList]
      exact ih (sizeOf rest) hszrest rest le_rfl hones'.2 _ hstep.1 hstep.2

/-- Idempotence of `optimize` on any expression list whose counts are all
one. -/
theorem optimize_idem_of_allOnes {es : List Expression} (h : allOnesL es = true) :
    optimize (optimize es) = optimize es := by
  have hinv := optimizeList_invariant (sizeOf es) es le_rfl h [] List.chain'_nil (by simp)
  have hfix := optimizeList_of_normal (optimizeList [] es) [] hinv.1 hinv.2 (by simp)
  simpa [optimize] using hfix

/-- C5: the optimizer is idempotent on every parsed expression tree
(including `Loop` bodies, which are optimized recursively):
`optimize (optimize T) = optimize T`. -/
theorem optimize_idempotent (tokens : List Token) (es : List Expression)
    (h : parse tokens = .ok es) : optimize (optimize es) = optimize es := by
  rw [parse] at h
  cases hdp : do_parse tokens.length tokens 0 with
  | error e => rw [hdp] at h; cases h
  | ok p =>
    rw [hdp] at h
    simp only [Except.map, Except.ok.injEq] at h
    subst h
    exact optimize_idem_of_allOnes (do_parse_allOnes _ _ _ _ _ hdp)

/-- Witness for C5 at the parse of `"+"`. -/
theorem optimize_idempotent_witness :
    optimize (optimize [Expression.IncValue 1]) = optimize [Expression.IncValue 1] :=
  optimize_idempotent (tokenize ['+']) [Expression.IncValue 1] rfl

end IdempotenceTheorems

/-- Rust `Buffer<T>` (lib.rs lines 37-40) instantiated at `T = u32` as
`run` does: the cell vector and the pointer.  Cell values are `Nat`s kept
below `U32_MOD` by the operations. -/
structure Buffer where
  buf : List Nat
  ptr : Nat

/-- Rust `Buffer::new` (lib.rs lines 44-55): `buf_size` zeroed cells,
pointer at 0. -/
def Buffer.new (buf_size : Nat) : Buffer :=
  { buf := List.replicate buf_size 0, ptr := 0 }

/-- Rust `Buffer::fwd` (lib.rs lines 74-76): `self.ptr += offset`,
wrapping `usize` addition (release profile). -/
def Buffer.fwd (b : Buffer) (offset : Nat) : Buffer :=
  { b with ptr := (b.ptr + offset) % USIZE_MOD }

/-- Rust `Buffer::bwd` (lib.rs lines 78-80): `self.ptr -= offset`,
wrapping `usize` subtraction (release profile). -/
def Buffer.bwd (b : Buffer) (offset : Nat) : Buffer :=
  { b with ptr := (b.ptr + (USIZE_MOD - offset % USIZE_MOD)) % USIZE_MOD }

/-- Rust `Buffer::read` (lib.rs lines 90-92): `self.buf[self.ptr]`;
`none` models the index-out-of-bounds panic. -/
def Buffer.read (b : Buffer) : Option Nat :=
  b.buf.get? b.ptr

/-- Rust `Buffer::inc` (lib.rs lines 82-84): `self.buf[self.ptr] += offset`
with wrapping `u32` addition; `none` models the index-out-of-bounds
panic. -/
def Buffer.inc (b : Buffer) (offset : Nat) : Option Buffer :=
  match b.buf.get? b.ptr with
  | some v => some { b with buf := b.buf.set b.ptr ((v + offset) % U32_MOD) }
  | none => none

/-- Rust `Buffer::dec` (lib.rs lines 86-88): `self.buf[self.ptr] -= offset`
with wrapping `u32` subtraction; `none` models the index-out-of-bounds
panic. -/
def Buffer.dec (b : Buffer) (offset : Nat) : Option Buffer :=
  match b.buf.get? b.ptr with
  | some v =>
      some { b with buf := b.buf.set b.ptr ((v + (U32_MOD - offset % U32_MOD)) % U32_MOD) }
  | none => none

/-- Rust `Buffer::write` (lib.rs lines 94-96): `self.buf[self.ptr] = val`;
`none` models the index-out-of-bounds panic. -/
def Buffer.write (b : Buffer) (val : Nat) : Option Buffer :=
  match b.buf.get? b.ptr with
  | some _ => some { b with buf := b.buf.set b.ptr val }
  | none => none

/-- Rust `read_mem` (lib.rs lines 99-103): read at most one byte from the
input stream into a one-byte buffer initialized to `[0]` and return
`buffer[0]`.  `Read::read` on an exhausted stream returns `Ok(0)` (zero
bytes read) rather than an error, so at end-of-stream the buffer byte stays
0 and `read_mem` returns `Ok(0)`.  The value read and the remaining stream
are returned. -/
def read_mem : List Nat → Nat × List Nat
  | [] => (0, [])
  | b :: rest => (b, rest)

/-- Rust `print_mem` (lib.rs lines 105-109): `let x: u8 =
mem.try_into().unwrap()` followed by printing and flushing the byte.
`u32 → u8` conversion by `try_into` fails for every value above 255, and
`unwrap` turns that failure into a panic, modelled as `none`; otherwise the
byte written to the output stream is returned. -/
def print_mem (mem : Nat) : Option Nat :=
  if mem < 256 then some mem else none

/-- The ways `do_run` can abort in this model: a panic from an
out-of-range tape index, or the `unwrap` panic of `print_mem` on a cell
value above 255.  (`BFEvalError::IOError` is unreachable here: the streams
are lists and never fault.) -/
inductive RunErr where
  | panicIndex
  | panicU8
deriving DecidableEq

/-- One interpreter state: the tape (Rust's `mem` buffer), the unread
input bytes, and the bytes written to the output stream so far. -/
structure Machine where
  mem : Buffer
  inp : List Nat
  out : List Nat

/-- The expression is not a `Loop` node. -/
def notLoop : Expression → Bool
  | .Loop _ => false
  | _ => true

/-- The non-loop arms of the `match expression` in `do_run` (lib.rs lines
274-287): one primitive step on the machine state. -/
def primStep : Expression → Machine → Except RunErr Machine
  | .MoveForward n, m => .ok { m with mem := m.mem.fwd n }
  | .MoveBack n, m => .ok { m with mem := m.mem.bwd n }
  | .IncValue n, m =>
    match m.mem.inc n with
    | some b => .ok { m with mem := b }
    | none => .error .panicIndex
  | .DecValue n, m =>
    match m.mem.dec n with
    | some b => .ok { m with mem := b }
    | none => .error .panicIndex
  | .OutputValue, m =>
    match m.mem.read with
    | none => .error .panicIndex
    | some v =>
      match print_mem v with
      | some byte => .ok { m with out := m.out ++ [byte] }
      | none => .error .panicU8
  | .InputValue, m =>
    match read_mem m.inp with
    | (b, rest) =>
      match m.mem.write b with
      | some mem2 => .ok { m with mem := mem2, inp := rest }
      | none => .error .panicIndex
  | .Loop _, m => .ok m

/-- Big-step execution relation for `do_run` (lib.rs lines 272-291):
`Exec es m r` holds when running the expression sequence `es` from machine
state `m` finishes with result `r` (the final state, or a modelled
panic).  The `Loop` rules mirror `while mem.read() > 0`: the cell is
re-read before every iteration (`u32` is unsigned, so `> 0` is `≠ 0`). -/
inductive Exec : List Expression → Machine → Except RunErr Machine → Prop where
  | nil (m) : Exec [] m (.ok m)
  | primOk {e : Expression} {es m m' r} (he : notLoop e = true)
      (hs : primStep e m = .ok m') (hr : Exec es m' r) : Exec (e :: es) m r
  | primErr {e : Expression} {es m er} (he : notLoop e = true)
      (hs : primStep e m = .error er) : Exec (e :: es) m (.error er)
  | loopReadErr {sub es m} (hv : m.mem.read = none) :
      Exec (.Loop sub :: es) m (.error .panicIndex)
  | loopZero {sub es m r} (hv : m.mem.read = some 0) (hr : Exec es m r) :
      Exec (.Loop sub :: es) m r
  | loopIter {sub es m v m' r} (hv : m.mem.read = some v) (hnz : v ≠ 0)
      (hb : Exec sub m (.ok m')) (hr : Exec (.Loop sub :: es) m' r) :
      Exec (.Loop sub :: es) m r
  | loopIterErr {sub es m v er} (hv : m.mem.read = some v) (hnz : v ≠ 0)
      (hb : Exec sub m (.error er)) : Exec (.Loop sub :: es) m (.error er)

/-- The fresh state Rust `run` (lib.rs lines 263-270) builds: a
30000-cell zeroed tape, pointer 0, the given input stream, empty output. -/
def initMachine (inp : List Nat) : Machine :=
  { mem := Buffer.new 30000, inp := inp, out := [] }

/-- Fuel-bounded evaluator for `Exec`, used to compute concrete
executions; `none` means the fuel ran out. -/
def evalSeq : Nat → List Expression → Machine → Option (Except RunErr Machine)
  | 0, _, _ => none
  | _ + 1, [], m => some (.ok m)
  | fuel + 1, e :: es, m =>
    match e with
    | .Loop sub =>
      match m.mem.read with
      | none => some (.error .panicIndex)
      | some 0 => evalSeq fuel es m
      | some (_ + 1) =>
        match evalSeq fuel sub m with
        | none => none
        | some (.error er) => some (.error er)
        | some (.ok m') => evalSeq fuel (e :: es) m'
    | _ =>
      match primStep e m with
      | .ok m' => evalSeq fuel es m'
      | .error er => some (.error er)

theorem evalSeq_sound (fuel : Nat) :
    ∀ (es : List Expression) (m : Machine) (r : Except RunErr Machine),
      evalSeq fuel es m = some r → Exec es m r := by
  induction fuel with
  | zero => intro es m r h; simp [evalSeq] at h
  | succ f ih =>
    intro es m r h
    cases es with
    | nil =>
      simp only [evalSeq, Option.some.injEq] at h
      subst h
      exact Exec.nil m
    | cons e rest =>
      cases e with
      | Loop sub =>
        simp only [evalSeq] at h
        cases hv : m.mem.read with
        | none =>
          rw [hv] at h
          simp only [Option.some.injEq] at h
          subst h
          exact Exec.loopReadErr hv
        | some v =>
          rw [hv] at h
          cases v with
          | zero => exact Exec.loopZero hv (ih rest m r h)
          | succ k =>
            cases hb : evalSeq f sub m with
            | none => rw [hb] at h; cases h
            | some rb =>
              rw [hb] at h
              cases rb with
              | error er =>
                simp only [Option.some.injEq] at h
                subst h
                exact Exec.loopIterErr hv (Nat.succ_ne_zero k) (ih sub m _ hb)
              | ok m' =>
                exact Exec.loopIter hv (Nat.succ_ne_zero k) (ih sub m _ hb)
                  (ih (.Loop sub :: rest) m' r h)
      | IncValue n =>
        simp only [evalSeq] at h
        cases hs : primStep (.IncValue n) m with
        | ok m' => rw [hs] at h; exact Exec.primOk rfl hs (ih rest m' r h)
        | error er =>
          rw [hs] at h
          simp only [Option.some.injEq] at h
          subst h
          exact Exec.primErr rfl hs
      | DecValue n =>
        simp only [evalSeq] at h
        cases hs : primStep (.DecValue n) m with
        | ok m' => rw [hs] at h; exact Exec.primOk rfl hs (ih rest m' r h)
        | error er =>
          rw [hs] at h
          simp only [Option.some.injEq] at h
          subst h
          exact Exec.primErr rfl hs
      | MoveForward n =>
        simp only [evalSeq] at h
        cases hs : primStep (.MoveForward n) m with
        | ok m' => rw [hs] at h; exact Exec.primOk rfl hs (ih rest m' r h)
        | error er =>
          rw [hs] at h
          simp only [Option.some.injEq] at h
          subst h
          exact Exec.primErr rfl hs
      | MoveBack n =>
        simp only [evalSeq] at h
        cases hs : primStep (.MoveBack n) m with
        | ok m' => rw [hs] at h; exact Exec.primOk rfl hs (ih rest m' r h)
        | error er =>
          rw [hs] at h
          simp only [Option.some.injEq] at h
          subst h
          exact Exec.primErr rfl hs
      | InputValue =>
        simp only [evalSeq] at h
        cases hs : primStep .InputValue m with
        | ok m' => rw [hs] at h; exact Exec.primOk rfl hs (ih rest m' r h)
        | error er =>
          rw [hs] at h
          simp only [Option.some.injEq] at h
          subst h
          exact Exec.primErr rfl hs
      | OutputValue =>
        simp only [evalSeq] at h
        cases hs : primStep .OutputValue m with
        | ok m' => rw [hs] at h; exact Exec.primOk rfl hs (ih rest m' r h)
        | error er =>
          rw [hs] at h
          simp only [Option.some.injEq] at h
          subst h
          exact Exec.primErr rfl hs

section RuntimeTheorems

/-- A machine whose single cell holds 300 with the pointer on it. -/
def outMachine300 : Machine :=
  { mem := { buf := [300], ptr := 0 }, inp := [], out := [] }

/-- C1 counterexample: executing an `OutputValue` on a cell holding 300
does not write the truncated byte `300 % 256 = 44`; `print_mem`'s
`try_into().unwrap()` panics and the execution aborts with no byte
written. -/
theorem output_no_truncation :
    print_mem 300 = none
    ∧ primStep Expression.OutputValue outMachine300 = .error RunErr.panicU8
    ∧ Exec [Expression.OutputValue] outMachine300 (.error RunErr.panicU8) :=
  ⟨rfl, rfl, Exec.primErr rfl rfl⟩

/-- C1 (amended): `OutputValue` reads the current cell; when the value is
at most 255 the interpreter writes exactly that byte to the output stream
and proceeds, and when the value exceeds 255 the `try_into().unwrap()`
conversion panics and aborts execution — the value is never truncated
modulo 256. -/
theorem output_value_spec (m : Machine) (v : Nat) (hv : m.mem.read = some v) :
    (v < 256 → Exec [Expression.OutputValue] m (.ok { m with out := m.out ++ [v] }))
    ∧ (256 ≤ v → Exec [Expression.OutputValue] m (.error RunErr.panicU8)) := by
  constructor
  · intro h
    refine Exec.primOk rfl ?_ (Exec.nil _)
    simp [primStep, hv, print_mem, h]
  · intro h
    refine Exec.primErr rfl ?_
    simp [primStep, hv, print_mem, Nat.not_lt.mpr h]

/-- Witness for C1's amended statement at a cell holding 65. -/
theorem output_value_spec_witness :
    Exec [Expression.OutputValue]
      { mem := { buf := [65], ptr := 0 }, inp := [], out := [] }
      (.ok { mem := { buf := [65], ptr := 0 }, inp := [], out := [65] }) := by
  have h := (output_value_spec
    { mem := { buf := [65], ptr := 0 }, inp := [], out := [] } 65 rfl).1 (by decide)
  simpa using h

/-- A machine with one cell holding 5 and an exhausted input stream. -/
def eofMachine : Machine :=
  { mem := { buf := [5], ptr := 0 }, inp := [], out := [] }

/-- C2 counterexample: executing `InputValue` at end-of-stream does not
abort.  `Read::read` reports zero bytes read with `Ok`, `read_mem` returns
`Ok(0)` (the untouched buffer byte), and that 0 is written into the
current cell; execution continues normally. -/
theorem input_eof_no_abort :
    read_mem [] = (0, [])
    ∧ primStep Expression.InputValue eofMachine
        = .ok { mem := { buf := [0], ptr := 0 }, inp := [], out := [] }
    ∧ Exec [Expression.InputValue] eofMachine
        (.ok { mem := { buf := [0], ptr := 0 }, inp := [], out := [] }) :=
  ⟨rfl, rfl, Exec.primOk rfl rfl (Exec.nil _)⟩

/-- C2 (amended): when the input stream is exhausted, the blocking
one-byte read returns zero bytes read, `read_mem` returns `Ok(0)`, and the
interpreter writes the sentinel value 0 into the current cell and
continues; end-of-stream is not a fatal I/O failure. -/
theorem input_value_eof_spec (m : Machine) (v : Nat) (hin : m.inp = [])
    (hp : m.mem.read = some v) :
    Exec [Expression.InputValue] m
      (.ok { mem := { buf := m.mem.buf.set m.mem.ptr 0, ptr := m.mem.ptr },
             inp := [], out := m.out }) := by
  rw [Buffer.read, List.get?_eq_getElem?] at hp
  refine Exec.primOk rfl ?_ (Exec.nil _)
  simp [primStep, hin, read_mem, Buffer.write, hp]

/-- Witness for C2's amended statement. -/
theorem input_value_eof_spec_witness :
    Exec [Expression.InputValue] eofMachine
      (.ok { mem := { buf := [0], ptr := 0 }, inp := [], out := [] }) := by
  have h := input_value_eof_spec eofMachine 5 rfl rfl
  simpa [eofMachine] using h

/-- C3: with the pointer on a valid cell, `Buffer::inc` and `Buffer::dec`
always succeed — no overflow or underflow of the cell value faults them —
and the new cell value is the old one shifted by the count modulo `2^32`
(`U32_MOD`). -/
theorem buffer_inc_dec_wraparound (b : Buffer) (v n : Nat)
    (hv : b.read = some v) :
    (∃ b', b.inc n = some b' ∧ b'.read = some ((v + n) % U32_MOD))
    ∧ (∃ b', b.dec n = some b'
        ∧ ∃ w, b'.read = some w ∧ w < U32_MOD
            ∧ (w : Int) ≡ (v : Int) - (n : Int) [ZMOD (U32_MOD : Int)]) := by
  rw [Buffer.read] at hv
  have hlen : b.ptr < b.buf.length := by
    by_contra hc
    rw [List.get?_eq_none.mpr (Nat.le_of_not_lt hc)] at hv
    cases hv
  have hmodpos : 0 < U32_MOD := by norm_num [U32_MOD]
  constructor
  · refine ⟨{ b with buf := b.buf.set b.ptr ((v + n) % U32_MOD) }, ?_, ?_⟩
    · simp only [Buffer.inc, hv]
    · simp [Buffer.read, List.getElem?_set_eq_of_lt _ hlen]
  · refine ⟨{ b with buf := b.buf.set b.ptr ((v + (U32_MOD - n % U32_MOD)) % U32_MOD) },
      ?_, ?_⟩
    · simp only [Buffer.dec, hv]
    refine ⟨(v + (U32_MOD - n % U32_MOD)) % U32_MOD, ?_, Nat.mod_lt _ hmodpos, ?_⟩
    · simp [Buffer.read, List.getElem?_set_eq_of_lt _ hlen]
    · have hle : n % U32_MOD ≤ U32_MOD := Nat.le_of_lt (Nat.mod_lt _ hmodpos)
      show ((((v + (U32_MOD - n % U32_MOD)) % U32_MOD : Nat)) : Int)
          ≡ (v : Int) - (n : Int) [ZMOD (U32_MOD : Int)]
      rw [Int.ModEq]
      push_cast [hle]
      norm_num [U32_MOD]
      omega

/-- Witness for C3 at a one-cell buffer holding 7 with counts 9. -/
theorem buffer_inc_dec_wraparound_witness :
    (∃ b', (Buffer.mk [7] 0).inc 9 = some b' ∧ b'.read = some ((7 + 9) % U32_MOD))
    ∧ (∃ b', (Buffer.mk [7] 0).dec 9 = some b'
        ∧ ∃ w, b'.read = some w ∧ w < U32_MOD
            ∧ (w : Int) ≡ (7 : Int) - (9 : Int) [ZMOD (U32_MOD : Int)]) :=
  buffer_inc_dec_wraparound (Buffer.mk [7] 0) 7 9 rfl

/-- Executing the parse of `"+++[-]"` on any tape whose cell 0 holds 0
with the pointer on it returns the state unchanged: three increments to 3,
then the loop decrements back to 0. -/
theorem exec_inc3_clear (t : List Nat) (inp out : List Nat) :
    Exec [Expression.IncValue 1, Expression.IncValue 1, Expression.IncValue 1,
        Expression.Loop [Expression.DecValue 1]]
      { mem := { buf := 0 :: t, ptr := 0 }, inp := inp, out := out }
      (.ok { mem := { buf := 0 :: t, ptr := 0 }, inp := inp, out := out }) :=
  evalSeq_sound 20 _ _ _ rfl

/-- C7: the loop rule re-reads the cell before every iteration and runs
the body while the value is nonzero (the `Exec.loopIter` / `Exec.loopZero`
rules of the semantics); concretely, the parse of `"+++[-]"` executed from
the fresh 30000-cell tape terminates, and the cell at the final pointer
position is 0. -/
theorem run_inc3_clear_loop :
    parse (tokenize ['+', '+', '+', '[', '-', ']'])
      = .ok [Expression.IncValue 1, Expression.IncValue 1, Expression.IncValue 1,
          Expression.Loop [Expression.DecValue 1]]
    ∧ ∃ mfin : Machine,
        Exec [Expression.IncValue 1, Expression.IncValue 1, Expression.IncValue 1,
            Expression.Loop [Expression.DecValue 1]]
          (initMachine []) (.ok mfin)
        ∧ mfin.mem.read = some 0 :=
  ⟨rfl, ⟨{ mem := { buf := 0 :: List.replicate 29999 0, ptr := 0 }, inp := [], out := [] },
    exec_inc3_clear (List.replicate 29999 0) [] [], rfl⟩⟩

end RuntimeTheorems

/-- Rust struct `Stats` (lib.rs lines 293-302): the seven instruction
counters. -/
structure Stats where
  fwd_count : Nat
  bwd_count : Nat
  inc_count : Nat
  dec_count : Nat
  output_count : Nat
  input_count : Nat
  loop_count : Nat
deriving DecidableEq

/-- Rust `Stats::default()`: every counter 0. -/
def Stats.zero : Stats := ⟨0, 0, 0, 0, 0, 0, 0⟩

/-- Rust `impl Add for Stats` (lib.rs lines 304-318): pointwise sum of the
seven counters. -/
def Stats.add (a b : Stats) : Stats :=
  ⟨a.fwd_count + b.fwd_count, a.bwd_count + b.bwd_count, a.inc_count + b.inc_count,
    a.dec_count + b.dec_count, a.output_count + b.output_count,
    a.input_count + b.input_count, a.loop_count + b.loop_count⟩

/-- The counter bump of the first `for` loop of `stats` (lib.rs lines
323-333) for one node: one increment of the matching counter, a `Loop`
node bumping `loop_count` itself. -/
def Stats.bump (acc : Stats) : Expression → Stats
  | .MoveForward _ => { acc with fwd_count := acc.fwd_count + 1 }
  | .MoveBack _ => { acc with bwd_count := acc.bwd_count + 1 }
  | .IncValue _ => { acc with inc_count := acc.inc_count + 1 }
  | .DecValue _ => { acc with dec_count := acc.dec_count + 1 }
  | .OutputValue => { acc with output_count := acc.output_count + 1 }
  | .InputValue => { acc with input_count := acc.input_count + 1 }
  | .Loop _ => { acc with loop_count := acc.loop_count + 1 }

/-- The first `for` loop of `stats`: count every top-level node by kind. -/
def statsCount (acc : Stats) : List Expression → Stats
  | [] => acc
  | e :: rest => statsCount (Stats.bump acc e) rest

mutual

/-- Rust `stats` (lib.rs lines 320-344): count the top-level nodes, then
fold the recursive `Stats` of every `Loop`'s children into the
accumulator. -/
def stats (expressions : List Expression) : Stats :=
  statsFold (statsCount Stats.zero expressions) expressions
termination_by (sizeOf expressions, 1)

/-- The `fold` of `stats` (lib.rs lines 335-343): merge the recursive
`Stats` of each `Loop`'s children. -/
def statsFold (acc : Stats) : List Expression → Stats
  | [] => acc
  | .Loop sub_exp :: rest => statsFold (Stats.add acc (stats sub_exp)) rest
  | _ :: rest => statsFold acc rest
termination_by l => (sizeOf l, 0)

end

section StatsTheorems

theorem statsAdd_assoc (a b c : Stats) :
    Stats.add (Stats.add a b) c = Stats.add a (Stats.add b c) := by
  cases a; cases b; cases c; simp [Stats.add]; omega

theorem statsAdd_comm (a b : Stats) : Stats.add a b = Stats.add b a := by
  cases a; cases b; simp [Stats.add]; omega

theorem statsAdd_rearrange (p q r s : Stats) :
    Stats.add (Stats.add (Stats.add p q) r) s
      = Stats.add (Stats.add p r) (Stats.add q s) := by
  cases p; cases q; cases r; cases s; simp [Stats.add]; omega

theorem statsBump_add_left (x acc : Stats) (e : Expression) :
    Stats.bump (Stats.add x acc) e = Stats.add x (Stats.bump acc e) := by
  cases e <;> (cases x; cases acc; simp [Stats.bump, Stats.add]; try omega)

theorem statsCount_add_left (x : Stats) :
    ∀ (l : List Expression) (acc : Stats),
      statsCount (Stats.add x acc) l = Stats.add x (statsCount acc l) := by
  intro l
  induction l with
  | nil => intro acc; rfl
  | cons e rest ih => intro acc; simp only [statsCount, statsBump_add_left, ih]

theorem statsCount_append (a b : List Expression) (acc : Stats) :
    statsCount acc (a ++ b) = statsCount (statsCount acc a) b := by
  induction a generalizing acc with
  | nil => rfl
  | cons e rest ih =>
    simp only [List.cons_append, statsCount]
    exact ih _

theorem statsCount_eq_add (l : List Expression) (acc : Stats) :
    statsCount acc l = Stats.add acc (statsCount Stats.zero l) := by
  have h := statsCount_add_left acc l Stats.zero
  have hz : Stats.add acc Stats.zero = acc := by
    cases acc; simp [Stats.add, Stats.zero]
  rw [hz] at h
  exact h

theorem statsFold_add_left (x : Stats) :
    ∀ (l : List Expression) (acc : Stats),
      statsFold (Stats.add x acc) l = Stats.add x (statsFold acc l) := by
  intro l
  induction l with
  | nil => intro acc; simp [statsFold]
  | cons e rest ih =>
    intro acc
    cases e <;> simp only [statsFold, ih, statsAdd_assoc]

theorem statsFold_append (a b : List Expression) :
    ∀ acc, statsFold acc (a ++ b) = statsFold (statsFold acc a) b := by
  induction a with
  | nil => intro acc; simp [statsFold]
  | cons e rest ih =>
    intro acc
    cases e <;> simp only [List.cons_append, statsFold, ih]

theorem statsFold_eq_add (l : List Expression) (acc : Stats) :
    statsFold acc l = Stats.add acc (statsFold Stats.zero l) := by
  have h := statsFold_add_left acc l Stats.zero
  have hz : Stats.add acc Stats.zero = acc := by
    cases acc; simp [Stats.add, Stats.zero]
  rw [hz] at h
  exact h

theorem stats_append (a b : List Expression) :
    stats (a ++ b) = Stats.add (stats a) (stats b) := by
  simp only [stats]
  rw [statsCount_append a b, statsCount_eq_add b,
    statsFold_append a b,
    statsFold_eq_add a
      (Stats.add (statsCount Stats.zero a) (statsCount Stats.zero b)),
    statsFold_eq_add b, statsFold_eq_add a (statsCount Stats.zero a),
    statsFold_eq_add b (statsCount Stats.zero b)]
  exact statsAdd_rearrange _ _ _ _

end StatsTheorems

/-- C9: the stats collector counts each node by kind — one increment per
node, a `Loop` counted itself before its children are recursed into — and
merges sub-tree `Stats` by pointwise addition, which is associative and
commutative; a composed `Stats` is the aggregate of its parts
(`stats (xs ++ ys) = add (stats xs) (stats ys)`), and for the parse of
`"+-><.,[]"` every one of the seven counters equals 1. -/
theorem stats_collector_spec :
    parse (tokenize ['+', '-', '>', '<', '.', ',', '[', ']'])
      = .ok [Expression.IncValue 1, Expression.DecValue 1, Expression.MoveForward 1,
          Expression.MoveBack 1, Expression.OutputValue, Expression.InputValue,
          Expression.Loop []]
    ∧ stats [Expression.IncValue 1, Expression.DecValue 1, Expression.MoveForward 1,
          Expression.MoveBack 1, Expression.OutputValue, Expression.InputValue,
          Expression.Loop []]
      = { fwd_count := 1, bwd_count := 1, inc_count := 1, dec_count := 1,
          output_count := 1, input_count := 1, loop_count := 1 }
    ∧ (∀ a b c : Stats, Stats.add (Stats.add a b) c = Stats.add a (Stats.add b c))
    ∧ (∀ a b : Stats, Stats.add a b = Stats.add b a)
    ∧ (∀ xs ys : List Expression, stats (xs ++ ys) = Stats.add (stats xs) (stats ys)) := by
  refine ⟨rfl, ?_, statsAdd_assoc, statsAdd_comm, stats_append⟩
  simp [stats, statsFold, statsCount, Stats.bump, Stats.zero, Stats.add]

section ExecLemmas

theorem exec_nil_inv {m : Machine} {r : Except RunErr Machine}
    (h : Exec [] m r) : r = .ok m := by
  cases h; rfl

theorem exec_cons_prim_iff {e : Expression} (he : notLoop e = true)
    (es : List Expression) (m : Machine) (r : Except RunErr Machine) :
    Exec (e :: es) m r ↔
      (∃ m', primStep e m = .ok m' ∧ Exec es m' r)
        ∨ (∃ er, primStep e m = .error er ∧ r = .error er) := by
  constructor
  · intro h
    cases h with
    | primOk he' hs hr => exact Or.inl ⟨_, hs, hr⟩
    | primErr he' hs => exact Or.inr ⟨_, hs, rfl⟩
    | loopReadErr hv => simp [notLoop] at he
    | loopZero hv hr => simp [notLoop] at he
    | loopIter hv hnz hb hr => simp [notLoop] at he
    | loopIterErr hv hnz hb => simp [notLoop] at he
  · rintro (⟨m', hs, hr⟩ | ⟨er, hs, hr⟩)
    · exact Exec.primOk he hs hr
    · subst hr
      exact Exec.primErr he hs

theorem exec_singleton_iff {e : Expression} (he : notLoop e = true)
    (m : Machine) (r : Except RunErr Machine) :
    Exec [e] m r ↔
      (∃ m', primStep e m = .ok m' ∧ r = .ok m')
        ∨ (∃ er, primStep e m = .error er ∧ r = .error er) := by
  rw [exec_cons_prim_iff he]
  constructor
  · rintro (⟨m', hs, hr⟩ | h)
    · exact Or.inl ⟨m', hs, exec_nil_inv hr⟩
    · exact Or.inr h
  · rintro (⟨m', hs, hr⟩ | h)
    · subst hr
      exact Or.inl ⟨m', hs, Exec.nil _⟩
    · exact Or.inr h

theorem exec_append_ok :
    ∀ {l : List Expression} {m : Machine} {s : Except RunErr Machine}, Exec l m s →
      ∀ {mid : Machine} {w : List Expression} {r : Except RunErr Machine},
        s = .ok mid → Exec w mid r → Exec (l ++ w) m r := by
  intro l m s h
  induction h with
  | nil m =>
    intro mid w r hs hw
    injection hs with h'
    subst h'
    exact hw
  | primOk he hs hr ih =>
    intro mid w r hmid hw
    exact Exec.primOk he hs (ih hmid hw)
  | primErr he hs => intro mid w r hmid hw; cases hmid
  | loopReadErr hv => intro mid w r hmid hw; cases hmid
  | loopZero hv hr ih =>
    intro mid w r hmid hw
    exact Exec.loopZero hv (ih hmid hw)
  | loopIter hv hnz hb hr ihb ih =>
    intro mid w r hmid hw
    exact Exec.loopIter hv hnz hb (ih hmid hw)
  | loopIterErr hv hnz hb ihb => intro mid w r hmid hw; cases hmid

theorem exec_append_err :
    ∀ {l : List Expression} {m : Machine} {s : Except RunErr Machine}, Exec l m s →
      ∀ {er : RunErr} {w : List Expression},
        s = .error er → Exec (l ++ w) m (.error er) := by
  intro l m s h
  induction h with
  | nil m => intro er w hs; cases hs
  | primOk he hs hr ih =>
    intro er w hmid
    exact Exec.primOk he hs (ih hmid)
  | primErr he hs =>
    intro er w hmid
    injection hmid with h'
    subst h'
    exact Exec.primErr he hs
  | loopReadErr hv =>
    intro er w hmid
    injection hmid with h'
    subst h'
    exact Exec.loopReadErr hv
  | loopZero hv hr ih =>
    intro er w hmid
    exact Exec.loopZero hv (ih hmid)
  | loopIter hv hnz hb hr ihb ih =>
    intro er w hmid
    exact Exec.loopIter hv hnz hb (ih hmid)
  | loopIterErr hv hnz hb ihb =>
    intro er w hmid
    injection hmid with h'
    subst h'
    exact Exec.loopIterErr hv hnz hb

theorem exec_append_inv :
    ∀ {l : List Expression} {m : Machine} {r : Except RunErr Machine}, Exec l m r →
      ∀ (a b : List Expression), l = a ++ b →
        (∃ mid, Exec a m (.ok mid) ∧ Exec b mid r)
          ∨ (∃ er, r = .error er ∧ Exec a m (.error er)) := by
  intro l m r h
  induction h with
  | nil m =>
    intro a b hab
    rcases (List.append_eq_nil).mp hab.symm with ⟨ha, hb⟩
    subst ha; subst hb
    exact Or.inl ⟨m, Exec.nil m, Exec.nil m⟩
  | primOk he hs hr ih =>
    intro a b hab
    cases a with
    | nil =>
      simp only [List.nil_append] at hab
      subst hab
      exact Or.inl ⟨_, Exec.nil _, Exec.primOk he hs hr⟩
    | cons x a' =>
      simp only [List.cons_append] at hab
      injection hab with h1 h2
      subst h1
      rcases ih a' b h2 with ⟨mid, eA, eB⟩ | ⟨er, hrr, eAerr⟩
      · exact Or.inl ⟨mid, Exec.primOk he hs eA, eB⟩
      · exact Or.inr ⟨er, hrr, Exec.primOk he hs eAerr⟩
  | primErr he hs =>
    intro a b hab
    cases a with
    | nil =>
      simp only [List.nil_append] at hab
      subst hab
      exact Or.inl ⟨_, Exec.nil _, Exec.primErr he hs⟩
    | cons x a' =>
      simp only [List.cons_append] at hab
      injection hab with h1 h2
      subst h1
      exact Or.inr ⟨_, rfl, Exec.primErr he hs⟩
  | loopReadErr hv =>
    intro a b hab
    cases a with
    | nil =>
      simp only [List.nil_append] at hab
      subst hab
      exact Or.inl ⟨_, Exec.nil _, Exec.loopReadErr hv⟩
    | cons x a' =>
      simp only [List.cons_append] at hab
      injection hab with h1 h2
      subst h1
      exact Or.inr ⟨_, rfl, Exec.loopReadErr hv⟩
  | loopZero hv hr ih =>
    intro a b hab
    cases a with
    | nil =>
      simp only [List.nil_append] at hab
      subst hab
      exact Or.inl ⟨_, Exec.nil _, Exec.loopZero hv hr⟩
    | cons x a' =>
      simp only [List.cons_append] at hab
      injection hab with h1 h2
      subst h1
      rcases ih a' b h2 with ⟨mid, eA, eB⟩ | ⟨er, hrr, eAerr⟩
      · exact Or.inl ⟨mid, Exec.loopZero hv eA, eB⟩
      · exact Or.inr ⟨er, hrr, Exec.loopZero hv eAerr⟩
  | loopIter hv hnz hb hr ihb ih =>
    intro a b hab
    cases a with
    | nil =>
      simp only [List.nil_append] at hab
      subst hab
      exact Or.inl ⟨_, Exec.nil _, Exec.loopIter hv hnz hb hr⟩
    | cons x a' =>
      rcases ih (x :: a') b hab with ⟨mid, eA, eB⟩ | ⟨er, hrr, eAerr⟩
      · simp only [List.cons_append] at hab
        injection hab with h1 h2
        subst h1
        exact Or.inl ⟨mid, Exec.loopIter hv hnz hb eA, eB⟩
      · simp only [List.cons_append] at hab
        injection hab with h1 h2
        subst h1
        exact Or.inr ⟨er, hrr, Exec.loopIter hv hnz hb eAerr⟩
  | loopIterErr hv hnz hb ihb =>
    intro a b hab
    cases a with
    | nil =>
      simp only [List.nil_append] at hab
      subst hab
      exact Or.inl ⟨_, Exec.nil _, Exec.loopIterErr hv hnz hb⟩
    | cons x a' =>
      simp only [List.cons_append] at hab
      injection hab with h1 h2
      subst h1
      exact Or.inr ⟨_, rfl, Exec.loopIterErr hv hnz hb⟩

end ExecLemmas

section ExecCongruence

theorem exec_append_congr_left {u v : List Expression}
    (huv : ∀ m r, Exec u m r ↔ Exec v m r) (p : List Expression)
    (m : Machine) (r : Except RunErr Machine) :
    Exec (p ++ u) m r ↔ Exec (p ++ v) m r := by
  constructor
  · intro h
    rcases exec_append_inv h p u rfl with ⟨mid, eP, eU⟩ | ⟨er, hrr, ePerr⟩
    · exact exec_append_ok eP rfl ((huv mid r).mp eU)
    · subst hrr
      exact exec_append_err ePerr rfl
  · intro h
    rcases exec_append_inv h p v rfl with ⟨mid, eP, eV⟩ | ⟨er, hrr, ePerr⟩
    · exact exec_append_ok eP rfl ((huv mid r).mpr eV)
    · subst hrr
      exact exec_append_err ePerr rfl

theorem exec_append_congr_right {u v : List Expression}
    (huv : ∀ m r, Exec u m r ↔ Exec v m r) (w : List Expression)
    (m : Machine) (r : Except RunErr Machine) :
    Exec (u ++ w) m r ↔ Exec (v ++ w) m r := by
  constructor
  · intro h
    rcases exec_append_inv h u w rfl with ⟨mid, eU, eW⟩ | ⟨er, hrr, eUerr⟩
    · exact exec_append_ok ((huv m (.ok mid)).mp eU) rfl eW
    · subst hrr
      exact exec_append_err ((huv m _).mp eUerr) rfl
  · intro h
    rcases exec_append_inv h v w rfl with ⟨mid, eV, eW⟩ | ⟨er, hrr, eVerr⟩
    · exact exec_append_ok ((huv m (.ok mid)).mpr eV) rfl eW
    · subst hrr
      exact exec_append_err ((huv m _).mpr eVerr) rfl

theorem exec_loop_congr_aux {sub' sub es : List Expression}
    (hcong : ∀ m r, Exec sub' m r → Exec sub m r) :
    ∀ {l : List Expression} {m : Machine} {r : Except RunErr Machine}, Exec l m r →
      l = Expression.Loop sub' :: es → Exec (Expression.Loop sub :: es) m r := by
  intro l m r h
  induction h with
  | nil m => intro hl; cases hl
  | primOk he hs hr ih =>
    intro hl
    injection hl with h1 h2
    subst h1
    simp [notLoop] at he
  | primErr he hs =>
    intro hl
    injection hl with h1 h2
    subst h1
    simp [notLoop] at he
  | loopReadErr hv =>
    intro hl
    injection hl with h1 h2
    injection h1 with h1'
    subst h1'
    subst h2
    exact Exec.loopReadErr hv
  | loopZero hv hr ih =>
    intro hl
    injection hl with h1 h2
    injection h1 with h1'
    subst h1'
    subst h2
    exact Exec.loopZero hv hr
  | loopIter hv hnz hb hr ihb ih =>
    intro hl
    have hcont := ih hl
    injection hl with h1 h2
    injection h1 with h1'
    subst h1'
    subst h2
    exact Exec.loopIter hv hnz (hcong _ _ hb) hcont
  | loopIterErr hv hnz hb ihb =>
    intro hl
    injection hl with h1 h2
    injection h1 with h1'
    subst h1'
    subst h2
    exact Exec.loopIterErr hv hnz (hcong _ _ hb)

theorem exec_loop_congr {sub' sub : List Expression}
    (hcong : ∀ m r, Exec sub' m r ↔ Exec sub m r) (es : List Expression)
    (m : Machine) (r : Except RunErr Machine) :
    Exec (Expression.Loop sub' :: es) m r ↔ Exec (Expression.Loop sub :: es) m r :=
  ⟨fun h => exec_loop_congr_aux (fun m r => (hcong m r).mp) h rfl,
   fun h => exec_loop_congr_aux (fun m r => (hcong m r).mpr) h rfl⟩

end ExecCongruence

section MergeSemantics

theorem get?_some_lt {l : List Nat} {i v : Nat} (h : l.get? i = some v) :
    i < l.length := by
  by_contra hc
  rw [List.get?_eq_none.mpr (Nat.le_of_not_lt hc)] at h
  cases h

/-- Sequential composition of two primitive steps, short-circuiting on the
first panic. -/
def seqStep (x e : Expression) (m : Machine) : Except RunErr Machine :=
  match primStep x m with
  | .ok m' => primStep e m'
  | .error er => .error er

theorem buffer_inc_none {b : Buffer} {a : Nat} (h : b.inc a = none) (c : Nat) :
    b.inc c = none := by
  cases hv : b.buf.get? b.ptr with
  | none => rw [Buffer.inc, hv]
  | some v => rw [Buffer.inc, hv] at h; cases h

theorem buffer_inc_comp {b b1 : Buffer} {a : Nat} (h : b.inc a = some b1) :
    b1.inc 1 = b.inc ((a + 1) % U32_MOD) := by
  cases hv : b.buf.get? b.ptr with
  | none => rw [Buffer.inc, hv] at h; cases h
  | some v =>
    have hlen : b.ptr < b.buf.length := get?_some_lt hv
    rw [Buffer.inc, hv] at h
    injection h with h'
    subst h'
    simp only [Buffer.inc, hv]
    rw [List.get?_set_eq_of_lt _ hlen]
    simp only [List.set_set, Option.some.injEq]
    have hval : ((v + a) % U32_MOD + 1) % U32_MOD = (v + (a + 1) % U32_MOD) % U32_MOD := by
      simp only [U32_MOD]
      omega
    rw [hval]

theorem buffer_dec_none {b : Buffer} {a : Nat} (h : b.dec a = none) (c : Nat) :
    b.dec c = none := by
  cases hv : b.buf.get? b.ptr with
  | none => rw [Buffer.dec, hv]
  | some v => rw [Buffer.dec, hv] at h; cases h

theorem buffer_dec_comp {b b1 : Buffer} {a : Nat} (h : b.dec a = some b1) :
    b1.dec 1 = b.dec ((a + 1) % U32_MOD) := by
  cases hv : b.buf.get? b.ptr with
  | none => rw [Buffer.dec, hv] at h; cases h
  | some v =>
    have hlen : b.ptr < b.buf.length := get?_some_lt hv
    rw [Buffer.dec, hv] at h
    injection h with h'
    subst h'
    simp only [Buffer.dec, hv]
    rw [List.get?_set_eq_of_lt _ hlen]
    simp only [List.set_set, Option.some.injEq]
    have hval : ((v + (U32_MOD - a % U32_MOD)) % U32_MOD + (U32_MOD - 1 % U32_MOD)) % U32_MOD
        = (v + (U32_MOD - (a + 1) % U32_MOD % U32_MOD)) % U32_MOD := by
      simp only [U32_MOD]
      omega
    rw [hval]

theorem buffer_fwd_comp (b : Buffer) (a : Nat) :
    (b.fwd a).fwd 1 = b.fwd ((a + 1) % USIZE_MOD) := by
  simp only [Buffer.fwd]
  have hval : ((b.ptr + a) % USIZE_MOD + 1) % USIZE_MOD
      = (b.ptr + (a + 1) % USIZE_MOD) % USIZE_MOD := by
    simp only [USIZE_MOD]
    omega
  rw [hval]

theorem buffer_bwd_comp (b : Buffer) (a : Nat) :
    (b.bwd a).bwd 1 = b.bwd ((a + 1) % USIZE_MOD) := by
  simp only [Buffer.bwd]
  have hval : ((b.ptr + (USIZE_MOD - a % USIZE_MOD)) % USIZE_MOD
        + (USIZE_MOD - 1 % USIZE_MOD)) % USIZE_MOD
      = (b.ptr + (USIZE_MOD - (a + 1) % USIZE_MOD % USIZE_MOD)) % USIZE_MOD := by
    simp only [USIZE_MOD]
    omega
  rw [hval]

theorem seqStep_inc (a : Nat) (m : Machine) :
    seqStep (.IncValue a) (.IncValue 1) m = primStep (.IncValue ((a + 1) % U32_MOD)) m := by
  rw [seqStep]
  cases h1 : m.mem.inc a with
  | none =>
    simp only [primStep, h1]
    rw [buffer_inc_none h1 ((a + 1) % U32_MOD)]
  | some b1 =>
    simp only [primStep, h1]
    rw [buffer_inc_comp h1]

theorem seqStep_dec (a : Nat) (m : Machine) :
    seqStep (.DecValue a) (.DecValue 1) m = primStep (.DecValue ((a + 1) % U32_MOD)) m := by
  rw [seqStep]
  cases h1 : m.mem.dec a with
  | none =>
    simp only [primStep, h1]
    rw [buffer_dec_none h1 ((a + 1) % U32_MOD)]
  | some b1 =>
    simp only [primStep, h1]
    rw [buffer_dec_comp h1]

theorem seqStep_fwd (a : Nat) (m : Machine) :
    seqStep (.MoveForward a) (.MoveForward 1) m
      = primStep (.MoveForward ((a + 1) % USIZE_MOD)) m := by
  rw [seqStep]
  simp only [primStep]
  rw [buffer_fwd_comp]

theorem seqStep_bwd (a : Nat) (m : Machine) :
    seqStep (.MoveBack a) (.MoveBack 1) m
      = primStep (.MoveBack ((a + 1) % USIZE_MOD)) m := by
  rw [seqStep]
  simp only [primStep]
  rw [buffer_bwd_comp]

theorem exec_pair_iff {x e g : Expression}
    (hx : notLoop x = true) (he : notLoop e = true) (hg : notLoop g = true)
    (hcomp : ∀ m, seqStep x e m = primStep g m) (m : Machine)
    (r : Except RunErr Machine) :
    Exec [g] m r ↔ Exec [x, e] m r := by
  constructor
  · intro h
    rcases (exec_singleton_iff hg m r).mp h with ⟨m2, hs, hr⟩ | ⟨er, hs, hr⟩
    · have hc := hcomp m
      rw [hs] at hc
      cases hpx : primStep x m with
      | error er => rw [seqStep, hpx] at hc; cases hc
      | ok m1 =>
        rw [seqStep, hpx] at hc
        subst hr
        exact Exec.primOk hx hpx (Exec.primOk he hc (Exec.nil _))
    · have hc := hcomp m
      rw [hs] at hc
      cases hpx : primStep x m with
      | error er' =>
        rw [seqStep, hpx] at hc
        injection hc with h'
        subst h'
        subst hr
        exact Exec.primErr hx hpx
      | ok m1 =>
        rw [seqStep, hpx] at hc
        subst hr
        exact Exec.primOk hx hpx (Exec.primErr he hc)
  · intro h
    rcases (exec_cons_prim_iff hx [e] m r).mp h with ⟨m1, hpx, h1⟩ | ⟨er, hpx, hr⟩
    · rcases (exec_singleton_iff he m1 r).mp h1 with ⟨m2, hpe, hr⟩ | ⟨er, hpe, hr⟩
      · subst hr
        refine Exec.primOk hg ?_ (Exec.nil _)
        rw [← hcomp m, seqStep, hpx]
        exact hpe
      · subst hr
        refine Exec.primErr hg ?_
        rw [← hcomp m, seqStep, hpx]
        exact hpe
    · subst hr
      refine Exec.primErr hg ?_
      rw [← hcomp m, seqStep, hpx]

end MergeSemantics

section OptimizeEquivalence

/-- Every `optimizePush` step either appends the incoming node unchanged,
or replaces the accumulator's last node by a merged node that executes
exactly like the last node followed by the incoming node. -/
theorem optimizePush_shape (acc : List Expression) (e : Expression) :
    optimizePush acc e = acc ++ [e]
      ∨ ∃ front x g, acc = front ++ [x]
          ∧ optimizePush acc e = front ++ [g]
          ∧ (∀ m r, Exec [g] m r ↔ Exec [x, e] m r) := by
  cases hacc : acc.getLast? with
  | none => exact Or.inl (optimizePush_of_getLast_none _ hacc)
  | some x =>
    have hacc_eq : acc.dropLast ++ [x] = acc :=
      List.dropLast_append_getLast? _ (Option.mem_def.mpr hacc)
    cases x with
    | IncValue n =>
      cases e with
      | IncValue k =>
        cases k with
        | zero => exact Or.inl (by simp [optimizePush, hacc])
        | succ k1 =>
          cases k1 with
          | zero =>
            refine Or.inr ⟨acc.dropLast, Expression.IncValue n,
              Expression.IncValue ((n + 1) % U32_MOD), hacc_eq.symm, ?_, ?_⟩
            · simp [optimizePush, hacc, replace_top]
            · exact exec_pair_iff rfl rfl rfl (seqStep_inc n)
          | succ k2 => exact Or.inl (by simp [optimizePush, hacc])
      | Loop sub => exact Or.inl (optimizePush_loop _ _)
      | DecValue k => exact Or.inl (optimizePush_of_not_sameKind hacc rfl)
      | MoveForward k => exact Or.inl (optimizePush_of_not_sameKind hacc rfl)
      | MoveBack k => exact Or.inl (optimizePush_of_not_sameKind hacc rfl)
      | InputValue => exact Or.inl (optimizePush_of_not_sameKind hacc rfl)
      | OutputValue => exact Or.inl (optimizePush_of_not_sameKind hacc rfl)
    | DecValue n =>
      cases e with
      | DecValue k =>
        cases k with
        | zero => exact Or.inl (by simp [optimizePush, hacc])
        | succ k1 =>
          cases k1 with
          | zero =>
            refine Or.inr ⟨acc.dropLast, Expression.DecValue n,
              Expression.DecValue ((n + 1) % U32_MOD), hacc_eq.symm, ?_, ?_⟩
            · simp [optimizePush, hacc, replace_top]
            · exact exec_pair_iff rfl rfl rfl (seqStep_dec n)
          | succ k2 => exact Or.inl (by simp [optimizePush, hacc])
      | Loop sub => exact Or.inl (optimizePush_loop _ _)
      | IncValue k => exact Or.inl (optimizePush_of_not_sameKind hacc rfl)
      | MoveForward k => exact Or.inl (optimizePush_of_not_sameKind hacc rfl)
      | MoveBack k => exact Or.inl (optimizePush_of_not_sameKind hacc rfl)
      | InputValue => exact Or.inl (optimizePush_of_not_sameKind hacc rfl)
      | OutputValue => exact Or.inl (optimizePush_of_not_sameKind hacc rfl)
    | MoveForward n =>
      cases e with
      | MoveForward k =>
        cases k with
        | zero => exact Or.inl (by simp [optimizePush, hacc])
        | succ k1 =>
          cases k1 with
          | zero =>
            refine Or.inr ⟨acc.dropLast, Expression.MoveForward n,
              Expression.MoveForward ((n + 1) % USIZE_MOD), hacc_eq.symm, ?_, ?_⟩
            · simp [optimizePush, hacc, replace_top]
            · exact exec_pair_iff rfl rfl rfl (seqStep_fwd n)
          | succ k2 => exact Or.inl (by simp [optimizePush, hacc])
      | Loop sub => exact Or.inl (optimizePush_loop _ _)
      | IncValue k => exact Or.inl (optimizePush_of_not_sameKind hacc rfl)
      | DecValue k => exact Or.inl (optimizePush_of_not_sameKind hacc rfl)
      | MoveBack k => exact Or.inl (optimizePush_of_not_sameKind hacc rfl)
      | InputValue => exact Or.inl (optimizePush_of_not_sameKind hacc rfl)
      | OutputValue => exact Or.inl (optimizePush_of_not_sameKind hacc rfl)
    | MoveBack n =>
      cases e with
      | MoveBack k =>
        cases k with
        | zero => exact Or.inl (by simp [optimizePush, hacc])
        | succ k1 =>
          cases k1 with
          | zero =>
            refine Or.inr ⟨acc.dropLast, Expression.MoveBack n,
              Expression.MoveBack ((n + 1) % USIZE_MOD), hacc_eq.symm, ?_, ?_⟩
            · simp [optimizePush, hacc, replace_top]
            · exact exec_pair_iff rfl rfl rfl (seqStep_bwd n)
          | succ k2 => exact Or.inl (by simp [optimizePush, hacc])
      | Loop sub => exact Or.inl (optimizePush_loop _ _)
      | IncValue k => exact Or.inl (optimizePush_of_not_sameKind hacc rfl)
      | DecValue k => exact Or.inl (optimizePush_of_not_sameKind hacc rfl)
      | MoveForward k => exact Or.inl (optimizePush_of_not_sameKind hacc rfl)
      | InputValue => exact Or.inl (optimizePush_of_not_sameKind hacc rfl)
      | OutputValue => exact Or.inl (optimizePush_of_not_sameKind hacc rfl)
    | InputValue =>
      cases e <;>
        first
          | exact Or.inl (optimizePush_loop _ _)
          | exact Or.inl (optimizePush_of_not_sameKind hacc rfl)
    | OutputValue =>
      cases e <;>
        first
          | exact Or.inl (optimizePush_loop _ _)
          | exact Or.inl (optimizePush_of_not_sameKind hacc rfl)
    | Loop xsub =>
      cases e <;>
        first
          | exact Or.inl (optimizePush_loop _ _)
          | exact Or.inl (optimizePush_of_not_sameKind hacc rfl)

theorem optimizePush_exec (acc : List Expression) (e : Expression)
    (w : List Expression) (m : Machine) (r : Except RunErr Machine) :
    Exec (optimizePush acc e ++ w) m r ↔ Exec ((acc ++ [e]) ++ w) m r := by
  rcases optimizePush_shape acc e with hdef | ⟨front, x, g, haccx, hpush, hpair⟩
  · rw [hdef]
  · rw [hpush, haccx]
    simp only [List.append_assoc]
    exact exec_append_congr_left
      (fun m r => exec_append_congr_right hpair w m r) front m r

theorem optimizeList_exec_equiv :
    ∀ (n : Nat) (es : List Expression), sizeOf es ≤ n →
      ∀ (acc : List Expression) (m : Machine) (r : Except RunErr Machine),
        Exec (optimizeList acc es) m r ↔ Exec (acc ++ es) m r := by
  intro n
  induction n using Nat.strong_induction_on with
  | _ n ih =>
    intro es hsz
    cases es with
    | nil =>
      intro acc m r
      simp only [optimizeList, List.append_nil]
    | cons e rest =>
      intro acc m r
      have hszrest : sizeOf rest < n :=
        lt_of_lt_of_le (by simp [List.cons.sizeOf_spec]) hsz
      simp only [optimizeList]
      rw [ih (sizeOf rest) hszrest rest le_rfl (optimizePush acc (optimizeExpr e)) m r]
      cases e with
      | Loop sub =>
        have hsub : sizeOf sub < n :=
          lt_of_lt_of_le
            (by simp [List.cons.sizeOf_spec, Expression.Loop.sizeOf_spec]; omega) hsz
        have hcong : ∀ m r, Exec (optimizeList [] sub) m r ↔ Exec sub m r := by
          intro m r
          have := ih (sizeOf sub) hsub sub le_rfl [] m r
          simpa using this
        rw [show optimizeExpr (Expression.Loop sub)
            = Expression.Loop (optimizeList [] sub) from rfl]
        rw [optimizePush_loop, List.append_assoc]
        exact exec_append_congr_left
          (fun m r => exec_loop_congr hcong rest m r) acc m r
      | IncValue k =>
        rw [show optimizeExpr (Expression.IncValue k) = Expression.IncValue k from rfl,
          optimizePush_exec acc (Expression.IncValue k) rest m r, List.append_assoc, List.singleton_append]
      | DecValue k =>
        rw [show optimizeExpr (Expression.DecValue k) = Expression.DecValue k from rfl,
          optimizePush_exec acc (Expression.DecValue k) rest m r, List.append_assoc, List.singleton_append]
      | MoveForward k =>
        rw [show optimizeExpr (Expression.MoveForward k) = Expression.MoveForward k from rfl,
          optimizePush_exec acc (Expression.MoveForward k) rest m r, List.append_assoc, List.singleton_append]
      | MoveBack k =>
        rw [show optimizeExpr (Expression.MoveBack k) = Expression.MoveBack k from rfl,
          optimizePush_exec acc (Expression.MoveBack k) rest m r, List.append_assoc, List.singleton_append]
      | InputValue =>
        rw [show optimizeExpr Expression.InputValue = Expression.InputValue from rfl,
          optimizePush_exec acc Expression.InputValue rest m r, List.append_assoc, List.singleton_append]
      | OutputValue =>
        rw [show optimizeExpr Expression.OutputValue = Expression.OutputValue from rfl,
          optimizePush_exec acc Expression.OutputValue rest m r, List.append_assoc, List.singleton_append]

/-- C10: optimization preserves interpreter behaviour.  For every parsed
expression sequence and every input byte stream, running the optimized
sequence from the fresh tape has exactly the same executions as running
the original: the same final machine state (tape, pointer, remaining
input, output byte sequence) and the same error outcome. -/
theorem optimize_preserves_execution (tokens : List Token) (es : List Expression)
    (h : parse tokens = .ok es) (inp : List Nat) (r : Except RunErr Machine) :
    Exec (optimize es) (initMachine inp) r ↔ Exec es (initMachine inp) r := by
  have heq := optimizeList_exec_equiv (sizeOf es) es le_rfl [] (initMachine inp) r
  simpa [optimize] using heq

/-- Witness for C10 at the parse of `"++"` with empty input. -/
theorem optimize_preserves_execution_witness :
    Exec (optimize [Expression.IncValue 1, Expression.IncValue 1]) (initMachine [])
        (.ok (initMachine []))
      ↔ Exec [Expression.IncValue 1, Expression.IncValue 1] (initMachine [])
        (.ok (initMachine [])) :=
  optimize_preserves_execution (tokenize ['+', '+'])
    [Expression.IncValue 1, Expression.IncValue 1] rfl [] (.ok (initMachine []))

end OptimizeEquivalence
